import Mathlib

/-! Verification of the workspace-updater pipeline.

Shallow embedding of `src/index.ts` (the pnpm-workspace catalog auditor /
updater) together with the parts of the `semver` npm library it calls
(`valid`, `prerelease`, `gt`, `diff`) and the claims about it.

Conventions:
* JavaScript strings are Lean `String`s (lists of characters).
* A YAML scalar that may not be a string is modelled by `JValue`.
* The npm registry is modelled as a function from package name to a
  `RegOutcome` (successful response carrying the `dist-tags.latest` string,
  non-success HTTP response, or I/O error).
* A thrown JavaScript exception that escapes to the top-level `catch` of
  `checkDependencies` is modelled by `Except Unit`.
* The length caps of the semver parser (256 characters, numeric components
  below `Number.MAX_SAFE_INTEGER`) are elided; the grammar is otherwise the
  strict semver grammar used by the library (optional leading `v`,
  surrounding whitespace trimmed).
-/

set_option autoImplicit false

namespace WorkspaceUpdater

/-! ## Characters and low-level string helpers -/

/-- The characters kept by `version.replace(/[^\d.]/g, '')`: digits and dots. -/
def isVerChar (c : Char) : Bool := c.isDigit || c == '.'

/-- ASCII whitespace removed by `String.prototype.trim` (the Unicode-only
whitespace code points are elided; no claim involves them). -/
def isWSChar (c : Char) : Bool :=
  c == ' ' || c == '\t' || c == '\n' || c == '\r' || c == '\x0b' || c == '\x0c'

/-- Characters allowed in semver prerelease/build identifiers: `[0-9A-Za-z-]`. -/
def isIdChar (c : Char) : Bool := c.isAlpha || c.isDigit || c == '-'

/-- `version.replace(/[^\d.]/g, '')` on the character list. -/
def stripL (cs : List Char) : List Char := cs.filter isVerChar

/-- `version.replace(/[^\d.]/g, '')`. -/
def stripStr (s : String) : String := String.mk (stripL s.data)

/-- `String.prototype.trim` (ASCII whitespace). -/
def trimChars (cs : List Char) : List Char :=
  ((cs.dropWhile isWSChar).reverse.dropWhile isWSChar).reverse

/-- Drop the optional leading `v` accepted by the semver grammar. -/
def dropV : List Char → List Char
  | [] => []
  | c :: rest => if c = 'v' then rest else c :: rest

/-- Split a character list at every `'.'` (like splitting on the dots of a
version string); always returns at least one part. -/
def splitDots : List Char → List (List Char)
  | [] => [[]]
  | c :: rest =>
    if c = '.' then [] :: splitDots rest
    else
      match splitDots rest with
      | g :: gs => (c :: g) :: gs
      | [] => [[c]]

/-- Rejoin the parts produced by `splitDots` with dots (used only to state
the round-trip property of `splitDots`). -/
def joinDots : List (List Char) → List Char
  | [] => []
  | [p] => p
  | p :: ps => p ++ '.' :: joinDots ps

/-- A semver numeric identifier: nonempty, digits only, no leading zero. -/
def isNumeral : List Char → Bool
  | [] => false
  | [c] => c.isDigit
  | c :: rest => c.isDigit && c != '0' && rest.all Char.isDigit

/-- Decimal value of a digit list. -/
def numVal (cs : List Char) : Nat :=
  cs.foldl (fun a c => a * 10 + (c.toNat - 48)) 0

/-! ## The semver data model -/

/-- A prerelease identifier: numeric identifiers compare numerically and
below alphanumeric ones. -/
inductive PreId where
  | num (n : Nat)
  | str (s : String)
  deriving DecidableEq, Repr

/-- A parsed semantic version (build metadata is carried but ignored by
precedence, as in the library). -/
structure SemVer where
  major : Nat
  minor : Nat
  patch : Nat
  pre : List PreId
  build : List String
  deriving DecidableEq, Repr

/-- Parse one prerelease identifier (numeric without leading zero, or
alphanumeric-with-hyphens containing a non-digit). -/
def preIdOf (cs : List Char) : Option PreId :=
  if cs.isEmpty then none
  else if cs.all Char.isDigit then
    if isNumeral cs then some (.num (numVal cs)) else none
  else if cs.all isIdChar then some (.str (String.mk cs)) else none

/-- Parse one build identifier (`[0-9A-Za-z-]+`). -/
def buildIdOf (cs : List Char) : Option String :=
  if !cs.isEmpty && cs.all isIdChar then some (String.mk cs) else none

/-- Parse the dot-separated prerelease identifiers. -/
def parsePreIds (parts : List (List Char)) : Option (List PreId) :=
  parts.mapM preIdOf

/-- Parse the dot-separated build identifiers. -/
def parseBuildIds (parts : List (List Char)) : Option (List String) :=
  parts.mapM buildIdOf

/-- Parse what may follow the build part separator position: either nothing
or a `+`-introduced build section. -/
def parseBuildPart : List Char → Option (List String)
  | [] => some []
  | '+' :: r => parseBuildIds (splitDots r)
  | _ => none

/-- Parse the suffix after the `major.minor.patch` core: empty, a
`-`-introduced prerelease section (optionally followed by a build section),
or a `+`-introduced build section. -/
def parseSuffix : List Char → Option (List PreId × List String)
  | [] => some ([], [])
  | '-' :: r =>
    let preCs := r.takeWhile (fun c => c != '+')
    let rest2 := r.dropWhile (fun c => c != '+')
    match parsePreIds (splitDots preCs), parseBuildPart rest2 with
    | some pre, some build => some (pre, build)
    | _, _ => none
  | '+' :: r => (parseBuildIds (splitDots r)).map (fun b => (([] : List PreId), b))
  | _ => none

/-- Parse a version after trimming and `v`-dropping: a maximal digits-and-dots
core that must read `N.N.N`, followed by an optional prerelease/build suffix. -/
def parseCore (cs : List Char) : Option SemVer :=
  match splitDots (cs.takeWhile isVerChar) with
  | [a, b, c] =>
    if isNumeral a && isNumeral b && isNumeral c then
      match parseSuffix (cs.dropWhile isVerChar) with
      | some (pre, build) => some ⟨numVal a, numVal b, numVal c, pre, build⟩
      | none => none
    else none
  | _ => none

/-- `semver.parse` on a string (strict grammar, optional `v`, trimmed). -/
def parseSemver (s : String) : Option SemVer :=
  parseCore (dropV (trimChars s.data))

/-- `semver.valid(s)` is truthy. -/
def validStr (s : String) : Bool := (parseSemver s).isSome

/-- `semver.prerelease(s)` is truthy: `s` parses and has a nonempty
prerelease part. -/
def preTruthy (s : String) : Bool :=
  match parseSemver s with
  | some v => !v.pre.isEmpty
  | none => false

/-! ## semver precedence and diff -/

/-- Compare two prerelease identifiers (`semver.compareIdentifiers`). -/
def compareIds : PreId → PreId → Ordering
  | .num a, .num b => compare a b
  | .num _, .str _ => .lt
  | .str _, .num _ => .gt
  | .str a, .str b => compare a b

/-- Identifier-wise comparison of two prerelease lists (the loop inside
`SemVer.comparePre`; running out of identifiers first sorts lower). -/
def cmpPreLists : List PreId → List PreId → Ordering
  | [], [] => .eq
  | [], _ :: _ => .lt
  | _ :: _, [] => .gt
  | a :: as, b :: bs =>
    match compareIds a b with
    | .eq => cmpPreLists as bs
    | o => o

/-- `SemVer.comparePre`: a version without prerelease sorts above one with. -/
def comparePre : List PreId → List PreId → Ordering
  | [], [] => .eq
  | [], _ :: _ => .gt
  | _ :: _, [] => .lt
  | a, b => cmpPreLists a b

/-- `SemVer.compareMain`: lexicographic on major, minor, patch. -/
def compareMain (x y : SemVer) : Ordering :=
  (compare x.major y.major).then ((compare x.minor y.minor).then (compare x.patch y.patch))

/-- `SemVer.compare`: main version then prerelease; build ignored. -/
def compareSemVer (x y : SemVer) : Ordering :=
  (compareMain x y).then (comparePre x.pre y.pre)

/-- `semver.gt` on parsed versions. -/
def gtv (x y : SemVer) : Bool := compareSemVer x y == Ordering.gt

/-- The release-type delta computed by `semver.diff`. -/
inductive DiffType where
  | major | minor | patch | premajor | preminor | prepatch | prerelease
  deriving DecidableEq, Repr

/-- The final part-comparison of `semver.diff`, with the `pre` prefix added
when the higher version has a prerelease part. -/
def diffDefault (v1 v2 : SemVer) (highHasPre : Bool) : DiffType :=
  if v1.major ≠ v2.major then (if highHasPre then .premajor else .major)
  else if v1.minor ≠ v2.minor then (if highHasPre then .preminor else .minor)
  else if v1.patch ≠ v2.patch then (if highHasPre then .prepatch else .patch)
  else .prerelease

/-- `semver.diff(v1, v2)` on parsed versions (`null` for equal versions is
`none`). -/
def diffT (v1 v2 : SemVer) : Option DiffType :=
  match compareSemVer v1 v2 with
  | .eq => none
  | comparison =>
    let v1Higher := comparison == Ordering.gt
    let high := if v1Higher then v1 else v2
    let low := if v1Higher then v2 else v1
    let highHasPre := !high.pre.isEmpty
    let lowHasPre := !low.pre.isEmpty
    some (
      if lowHasPre && !highHasPre then
        if low.patch = 0 ∧ low.minor = 0 then .major
        else if high.patch ≠ 0 then .patch
        else if high.minor ≠ 0 then .minor
        else .major
      else diffDefault v1 v2 highHasPre)

/-! ## The tool's data model (`src/index.ts`) -/

/-- A YAML scalar found as a catalog value. `str` is a JavaScript string,
`null` covers `null`/missing, and `other b` is any other value (number,
boolean, object, ...) whose JavaScript truthiness is `b`. -/
inductive JValue where
  | str (s : String)
  | null
  | other (isTruthy : Bool)
  deriving DecidableEq, Repr

/-- The catalog section: an ordered mapping from dependency name to value
(JavaScript object keys are unique; theorems that need this take a `Nodup`
hypothesis on the key list). -/
abbrev Catalog := List (String × JValue)

/-- `OutdatedInfo` from `src/index.ts` line 90. `type` is the result of
`semver.diff` (`none` is JavaScript `null`). -/
structure OutdatedInfo where
  name : String
  current : String
  latest : String
  type : Option DiffType
  deriving DecidableEq, Repr

/-- Outcome of the registry request issued by `getLatestVersion`:
a successful response carrying `dist-tags.latest`, a non-success HTTP
response, or a thrown I/O error. -/
inductive RegOutcome where
  | ok (latest : String)
  | httpError
  | ioError
  deriving DecidableEq, Repr

/-- `getLatestVersion` (lines 75-88): both failure kinds are caught locally,
logged, and turned into `null`. -/
def getLatestVersion (r : String → RegOutcome) (name : String) : Option String :=
  match r name with
  | .ok latest => some latest
  | .httpError => none
  | .ioError => none

/-- `const cleanVersion = version?.replace(/[^\d.]/g, '') || ''` (line 125).
On a string this strips every character except digits and dots; on
`null`/`undefined` optional chaining yields `undefined` and `|| ''` makes it
`''`; on any other value `.replace` is not a function and a `TypeError` is
thrown. -/
def cleanOf : JValue → Except Unit String
  | .str s => .ok (stripStr s)
  | .null => .ok ""
  | .other _ => .error ()

/-- The callback mapped over the catalog entries (lines 124-135). A thrown
exception (which would reject `Promise.all` and reach the top-level `catch`)
is `Except.error`; `semver.gt` throws when the fetched latest version is not
a valid version. -/
def checkEntry (r : String → RegOutcome) (name : String) (version : JValue) :
    Except Unit (Option OutdatedInfo) :=
  match cleanOf version with
  | .error e => .error e
  | .ok cleanVersion =>
    match version with
    | .str vs =>
      if preTruthy vs || !validStr cleanVersion then .ok none
      else
        match getLatestVersion r name with
        | none => .ok none
        | some latestVersion =>
          match parseSemver latestVersion with
          | none => .error ()
          | some lv =>
            match parseSemver cleanVersion with
            | none => .error ()
            | some cv =>
              if gtv lv cv then
                .ok (some ⟨name, vs, latestVersion, diffT cv lv⟩)
              else .ok none
    | _ => .ok none

/-- `Promise.all` over the per-entry checks (line 137): the list of results
in catalog order, or the first thrown exception. -/
def collectResults (r : String → RegOutcome) : Catalog → Except Unit (List (Option OutdatedInfo))
  | [] => .ok []
  | p :: rest =>
    match checkEntry r p.1 p.2, collectResults r rest with
    | .ok x, .ok xs => .ok (x :: xs)
    | .error e, _ => .error e
    | _, .error e => .error e

/-- Lines 124-138: the outdated set of a run (non-`null` results, in catalog
order). -/
def runCheck (r : String → RegOutcome) (cat : Catalog) : Except Unit (List OutdatedInfo) :=
  (collectResults r cat).map (fun results => results.filterMap id)

/-! ## Reporter (lines 140-165) -/

/-- `grouped[t]` after the grouping loops (lines 141-151): the outdated
entries whose delta type is `t`, in catalog order. -/
def bucket (t : DiffType) (outdated : List OutdatedInfo) : List OutdatedInfo :=
  outdated.filter (fun d => d.type == some t)

/-- One printed entry line: ``    name: current -> latest``. -/
def entryLine (d : OutdatedInfo) : String :=
  "    " ++ d.name ++ ": " ++ d.current ++ " -> " ++ d.latest

/-- The header printed before the major bucket. -/
def majorHeader : String := "\n  \x1b[31mMajor Updates:\x1b[0m"

/-- The header printed before the minor bucket. -/
def minorHeader : String := "\n  \x1b[34mMinor Updates:\x1b[0m"

/-- The header printed before the patch bucket. -/
def patchHeader : String := "\n  \x1b[32mPatch Updates:\x1b[0m"

/-- One bucket section of the report: nothing when the bucket is empty,
otherwise its header followed by the entry lines. -/
def sectionFor (hdr : String) (ds : List OutdatedInfo) : List String :=
  if ds.isEmpty then [] else hdr :: ds.map entryLine

/-- The lines printed by the report (lines 140-165 and 187-189): only the
major, minor and patch buckets are printed. -/
def printedReport (outdated : List OutdatedInfo) : List String :=
  if outdated.isEmpty then ["All dependencies are up to date."]
  else
    "Outdated dependencies found:" ::
      (sectionFor majorHeader (bucket .major outdated)
        ++ sectionFor minorHeader (bucket .minor outdated)
        ++ sectionFor patchHeader (bucket .patch outdated))

/-! ## Updater (lines 167-184) -/

/-- The command-line flags relevant to updating. -/
structure Flags where
  update : Bool
  patch : Bool
  minor : Bool
  major : Bool
  deriving DecidableEq, Repr

/-- Lines 169-176: with at least one of `--patch`/`--minor`/`--major`, keep
only the entries whose delta type exactly matches a requested filter;
otherwise keep everything. -/
def filterUpdates (f : Flags) (outdated : List OutdatedInfo) : List OutdatedInfo :=
  if f.patch || f.minor || f.major then
    outdated.filter (fun d =>
      (f.patch && d.type == some DiffType.patch)
        || (f.minor && d.type == some DiffType.minor)
        || (f.major && d.type == some DiffType.major))
  else outdated

/-- `catalog[name]` (first value of the key; unique keys make this the only
value). -/
def lookup (cat : Catalog) (k : String) : Option JValue :=
  (cat.find? (fun p => p.1 == k)).map (fun p => p.2)

/-- `catalog[name] = v` on an existing key: replaces the value, keeps keys
and order. -/
def setVal (cat : Catalog) (k : String) (v : JValue) : Catalog :=
  cat.map (fun p => if p.1 = k then (k, v) else p)

/-- JavaScript truthiness of `catalog[name]`. -/
def truthy : Option JValue → Bool
  | some (.str s) => !(s == "")
  | some .null => false
  | some (.other b) => b
  | none => false

/-- `current.startsWith('^')`. -/
def startsCaret (s : String) : Bool :=
  match s.data with
  | c :: _ => c = '^'
  | [] => false

/-- Line 180: the value written for an updated entry. -/
def newValue (d : OutdatedInfo) : String :=
  if startsCaret d.current then "^" ++ d.latest else d.latest

/-- One iteration of the update loop (lines 178-182). -/
def updateStep (cat : Catalog) (d : OutdatedInfo) : Catalog :=
  if truthy (lookup cat d.name) then setVal cat d.name (.str (newValue d)) else cat

/-- The update loop (lines 178-182). -/
def applyUpdates (cat : Catalog) (toUpdate : List OutdatedInfo) : Catalog :=
  toUpdate.foldl updateStep cat

/-! ## The manifest document and the whole run -/

/-- The parsed `pnpm-workspace.yaml`: the optional `catalog` section plus
every other top-level field (kept opaque). -/
structure WorkspaceDoc where
  catalog : Option Catalog
  rest : List (String × JValue)
  deriving DecidableEq, Repr

/-- `doc.catalog || {}` (line 119). -/
def catalogOf (doc : WorkspaceDoc) : Catalog := doc.catalog.getD []

/-- The document as written back by `yaml.dump(doc)` / `Bun.write`
(lines 140-186), at the data level: the update loop runs only when the
outdated set is nonempty and `--update` was passed, and it mutates the
`catalog` field in place (when the catalog section is absent the loop runs
on a fresh object and the document is unchanged). A thrown exception is
propagated. -/
def writtenDoc (f : Flags) (r : String → RegOutcome) (doc : WorkspaceDoc) :
    Except Unit WorkspaceDoc :=
  (runCheck r (catalogOf doc)).map (fun out =>
    if out.isEmpty then doc
    else if f.update then
      match doc.catalog with
      | some c => { doc with catalog := some (applyUpdates c (filterUpdates f out)) }
      | none => doc
    else doc)

/-! ## Concrete fixtures (registries, catalogs, documents) used by the
counterexamples and witnesses below -/

/-- `--update` with no release-type filters. -/
def noFilterUpd : Flags := ⟨true, false, false, false⟩

/-- `--update --minor`. -/
def minorOnlyUpd : Flags := ⟨true, false, true, false⟩

/-- A registry whose latest version for every package is the prerelease
`2.0.0-beta.1`. -/
def regC1 : String → RegOutcome := fun _ => .ok "2.0.0-beta.1"

/-- A one-entry catalog at version `1.0.0`. -/
def catC1 : Catalog := [("foo", .str "1.0.0")]

/-- The outdated entry produced for `catC1` under `regC1`. -/
def dC1 : OutdatedInfo := ⟨"foo", "1.0.0", "2.0.0-beta.1", some .premajor⟩

/-- A two-entry catalog, one caret-prefixed entry and one bare entry. -/
def catW3 : Catalog := [("foo", .str "^1.2.3"), ("bar", .str "1.2.3")]

/-- Outdated entry with a caret-prefixed current value. -/
def dW3a : OutdatedInfo := ⟨"foo", "^1.2.3", "1.3.0", some .minor⟩

/-- Outdated entry with a bare current value. -/
def dW3b : OutdatedInfo := ⟨"bar", "1.2.3", "1.3.0", some .minor⟩

/-- A registry whose latest version for every package is `1.3.0`. -/
def regC4 : String → RegOutcome := fun _ => .ok "1.3.0"

/-- A document whose only catalog entry uses a tilde range. -/
def docC4 : WorkspaceDoc := ⟨some [("foo", .str "~1.2.3")], [("packages", .str "pkg")]⟩

/-- A catalog containing a non-string (numeric) value, as YAML
`foo: 1.25` would produce. -/
def catC5 : Catalog := [("foo", .other true), ("bar", .str "1.0.0")]

/-- A registry whose latest version for every package is `2.0.0`. -/
def regC5 : String → RegOutcome := fun _ => .ok "2.0.0"

/-- An outdated entry classified `major`. -/
def dW6a : OutdatedInfo := ⟨"a", "1.0.0", "2.0.0", some .major⟩

/-- An outdated entry classified `premajor`. -/
def dW6b : OutdatedInfo := ⟨"b", "1.0.0", "2.0.0-rc.1", some .premajor⟩

/-- A catalog with the two entries of `dW6a`/`dW6b`. -/
def catW6 : Catalog := [("a", .str "1.0.0"), ("b", .str "1.0.0")]

/-- A registry that always answers `2.0.0`. -/
def regW7a : String → RegOutcome := fun _ => .ok "2.0.0"

/-- Like `regW7a` but the lookup of `bad` fails with a non-success
response. -/
def regW7b : String → RegOutcome := fun n => if n = "bad" then .httpError else .ok "2.0.0"

/-- A registry for the idempotence scenario: a minor bump for `alpha`, a
premajor (prerelease) bump for `beta`, a failing lookup for everything
else. -/
def regW9 : String → RegOutcome := fun n =>
  if n = "alpha" then .ok "1.2.0"
  else if n = "beta" then .ok "2.0.0-rc.1"
  else .httpError

/-- A three-entry document (one caret entry, one bare entry, one up-to-date
entry) with a non-catalog field. -/
def docW9 : WorkspaceDoc :=
  ⟨some [("alpha", .str "^1.0.0"), ("beta", .str "1.0.0"), ("gamma", .str "2.0.0")],
    [("packages", .str "pkg")]⟩

/-- The document written by an unfiltered update run on `docW9` under
`regW9`. -/
def docW9after : WorkspaceDoc :=
  ⟨some [("alpha", .str "^1.2.0"), ("beta", .str "2.0.0-rc.1"), ("gamma", .str "2.0.0")],
    [("packages", .str "pkg")]⟩

/-! # Theorems

First the generic helper lemmas about characters, `splitDots`, `numVal`,
stripping and trimming; then the parser shape lemmas; then the lemmas about
the pipeline; finally one theorem per claim (with witnesses and
counterexamples). -/

/-! ## Character helpers -/

lemma isVerChar_eq_false_of_isWSChar {c : Char} (h : isWSChar c = true) :
    isVerChar c = false := by
  unfold isWSChar at h
  simp only [Bool.or_eq_true, beq_iff_eq] at h
  rcases h with ((((h | h) | h) | h) | h) | h <;> subst h <;> decide

lemma isVerChar_v : isVerChar 'v' = false := by decide

lemma isVerChar_caret : isVerChar '^' = false := by decide

lemma isWSChar_eq_false_of_isVerChar {c : Char} (h : isVerChar c = true) :
    isWSChar c = false := by
  cases hw : isWSChar c with
  | false => rfl
  | true => rw [isVerChar_eq_false_of_isWSChar hw] at h; exact absurd h (by simp)

lemma ne_v_of_isVerChar {c : Char} (h : isVerChar c = true) : c ≠ 'v' := by
  intro hc; subst hc; exact absurd h (by decide)

lemma toNat_ge_49 {c : Char} (hd : c.isDigit = true) (hc : c ≠ '0') :
    49 ≤ c.toNat := by
  have h0 : 48 ≤ c.toNat := by
    simp only [Char.isDigit, Bool.and_eq_true, decide_eq_true_eq] at hd
    exact hd.1
  rcases Nat.lt_or_ge c.toNat 49 with h | h
  · exfalso
    apply hc
    have ht : c.toNat = 48 := by omega
    calc c = Char.ofNat c.toNat := (Char.ofNat_toNat c).symm
    _ = Char.ofNat 48 := by rw [ht]
    _ = '0' := rfl
  · exact h

/-! ## `dropWhile`, `filter`, trimming -/

lemma filter_dropWhile {p q : Char → Bool} (h : ∀ c, q c = true → p c = false) :
    ∀ l : List Char, (l.dropWhile q).filter p = l.filter p := by
  intro l
  induction l with
  | nil => rfl
  | cons c cs ih =>
    rw [List.dropWhile_cons]
    by_cases hq : q c = true
    · rw [if_pos hq, ih, List.filter_cons, h c hq]
      simp
    · simp [hq]

lemma stripL_trimChars (cs : List Char) : stripL (trimChars cs) = stripL cs := by
  unfold stripL trimChars
  rw [List.filter_reverse, filter_dropWhile (fun c => isVerChar_eq_false_of_isWSChar),
    List.filter_reverse, List.reverse_reverse,
    filter_dropWhile (fun c => isVerChar_eq_false_of_isWSChar)]

lemma stripL_dropV (cs : List Char) : stripL (dropV cs) = stripL cs := by
  cases cs with
  | nil => rfl
  | cons c rest =>
    unfold dropV
    by_cases h : c = 'v'
    · subst h
      simp [stripL, List.filter_cons, isVerChar_v]
    · simp [h]

lemma mem_stripL_isVerChar {c : Char} {cs : List Char} (h : c ∈ stripL cs) :
    isVerChar c = true := List.of_mem_filter h

lemma stripL_append (xs ys : List Char) :
    stripL (xs ++ ys) = stripL xs ++ stripL ys := List.filter_append ..

lemma stripL_eq_self {cs : List Char} (h : ∀ c ∈ cs, isVerChar c = true) :
    stripL cs = cs := List.filter_eq_self.mpr h

lemma dropWhile_eq_self_of_all {p : Char → Bool} {l : List Char}
    (h : ∀ c ∈ l, p c = false) : l.dropWhile p = l := by
  cases l with
  | nil => rfl
  | cons c cs => rw [List.dropWhile_cons, h c (by simp)]; simp

lemma trimChars_eq_self {cs : List Char} (h : ∀ c ∈ cs, isWSChar c = false) :
    trimChars cs = cs := by
  unfold trimChars
  rw [dropWhile_eq_self_of_all h, dropWhile_eq_self_of_all (by
    intro c hc
    exact h c (List.mem_reverse.mp hc)), List.reverse_reverse]

lemma dropV_eq_self {cs : List Char} (h : ∀ c ∈ cs, isVerChar c = true) :
    dropV cs = cs := by
  cases cs with
  | nil => rfl
  | cons c rest =>
    show (if c = 'v' then rest else c :: rest) = c :: rest
    rw [if_neg (ne_v_of_isVerChar (h c (by simp)))]

lemma dropWhile_append_singleton {p : Char → Bool} {c : Char} (hc : p c = false) :
    ∀ l : List Char, (l ++ [c]).dropWhile p = l.dropWhile p ++ [c] := by
  intro l
  induction l with
  | nil => simp [List.dropWhile_cons, hc]
  | cons a as ih =>
    rw [List.cons_append, List.dropWhile_cons, List.dropWhile_cons]
    by_cases ha : p a = true
    · simp only [ha, if_true, ih]
    · simp [ha]

lemma trimChars_cons {c : Char} (hc : isWSChar c = false) (cs : List Char) :
    ∃ ys, trimChars (c :: cs) = c :: ys := by
  unfold trimChars
  rw [List.dropWhile_cons, hc]
  simp only [Bool.false_eq_true, if_false, List.reverse_cons]
  rw [dropWhile_append_singleton hc]
  refine ⟨(List.dropWhile isWSChar cs.reverse).reverse, ?_⟩
  simp

/-! ## `splitDots` -/

lemma splitDots_ne_nil (cs : List Char) : splitDots cs ≠ [] := by
  induction cs with
  | nil => simp [splitDots]
  | cons c rest ih =>
    unfold splitDots
    by_cases h : c = '.'
    · simp [h]
    · simp only [h, if_false]
      cases hs : splitDots rest with
      | nil => exact absurd hs ih
      | cons g gs => simp

lemma noDot_of_mem_splitDots :
    ∀ cs : List Char, ∀ p ∈ splitDots cs, ('.' : Char) ∉ p := by
  intro cs
  induction cs with
  | nil => intro p hp; simp [splitDots] at hp; simp [hp]
  | cons c rest ih =>
    intro p hp
    unfold splitDots at hp
    by_cases h : c = '.'
    · simp only [h, if_true] at hp
      rcases List.mem_cons.mp hp with h1 | h1
      · simp [h1]
      · exact ih p h1
    · simp only [h, if_false] at hp
      cases hs : splitDots rest with
      | nil => exact absurd hs (splitDots_ne_nil rest)
      | cons g gs =>
        rw [hs] at hp
        rcases List.mem_cons.mp hp with h1 | h1
        · subst h1
          intro hmem
          rcases List.mem_cons.mp hmem with h2 | h2
          · exact h h2.symm
          · exact ih g (by rw [hs]; exact List.mem_cons_self ..) h2
        · exact ih p (by rw [hs]; exact List.mem_cons_of_mem _ h1)

lemma joinDots_splitDots : ∀ cs : List Char, joinDots (splitDots cs) = cs := by
  intro cs
  induction cs with
  | nil => rfl
  | cons c rest ih =>
    unfold splitDots
    by_cases h : c = '.'
    · subst h
      simp only [if_true]
      cases hs : splitDots rest with
      | nil => exact absurd hs (splitDots_ne_nil rest)
      | cons g gs =>
        show ([] : List Char) ++ '.' :: joinDots (g :: gs) = '.' :: rest
        rw [← hs, ih]
        rfl
    · simp only [h, if_false]
      cases hs : splitDots rest with
      | nil => exact absurd hs (splitDots_ne_nil rest)
      | cons g gs =>
        cases gs with
        | nil =>
          show c :: g = c :: rest
          have := ih
          rw [hs] at this
          simpa [joinDots] using this
        | cons g2 gs2 =>
          show (c :: g) ++ '.' :: joinDots (g2 :: gs2) = c :: rest
          have := ih
          rw [hs] at this
          simp only [joinDots] at this
          simpa using this

lemma length_splitDots : ∀ cs : List Char, (splitDots cs).length = cs.count '.' + 1 := by
  intro cs
  induction cs with
  | nil => rfl
  | cons c rest ih =>
    unfold splitDots
    by_cases h : c = '.'
    · subst h
      simp [List.count_cons, ih]
    · simp only [h, if_false]
      cases hs : splitDots rest with
      | nil => exact absurd hs (splitDots_ne_nil rest)
      | cons g gs =>
        have hl : (g :: gs).length = rest.count '.' + 1 := by rw [← hs]; exact ih
        have hcount : (c :: rest).count '.' = rest.count '.' := by
          rw [List.count_cons]
          simp [h]
        simp only [List.length_cons, hcount] at hl ⊢
        omega

lemma splitDots_noDot {xs : List Char} (h : ('.' : Char) ∉ xs) : splitDots xs = [xs] := by
  induction xs with
  | nil => rfl
  | cons c rest ih =>
    unfold splitDots
    have hc : c ≠ '.' := fun hc => h (by simp [hc])
    simp only [hc, if_false]
    rw [ih (fun hm => h (List.mem_cons_of_mem _ hm))]

lemma splitDots_append_dot {xs : List Char} (h : ('.' : Char) ∉ xs) (ys : List Char) :
    splitDots (xs ++ '.' :: ys) = xs :: splitDots ys := by
  induction xs with
  | nil =>
    rw [List.nil_append]
    show (if ('.' : Char) = '.' then [] :: splitDots ys else _) = [] :: splitDots ys
    rw [if_pos rfl]
  | cons c rest ih =>
    have hc : c ≠ '.' := fun hc => h (by simp [hc])
    show splitDots (c :: (rest ++ '.' :: ys)) = (c :: rest) :: splitDots ys
    conv_lhs => rw [splitDots]
    simp only [hc, if_false]
    rw [ih (fun hm => h (List.mem_cons_of_mem _ hm))]

/-! ## `numVal` -/

lemma numFold_ge (cs : List Char) :
    ∀ a : Nat, a ≤ cs.foldl (fun a c => a * 10 + (c.toNat - 48)) a := by
  induction cs with
  | nil => intro a; exact Nat.le_refl a
  | cons c rest ih =>
    intro a
    calc a ≤ a * 10 + (c.toNat - 48) := by omega
    _ ≤ _ := ih _

lemma numFold_gt {cs : List Char} (hne : cs ≠ []) {a : Nat} (ha : 1 ≤ a) :
    a < cs.foldl (fun a c => a * 10 + (c.toNat - 48)) a := by
  cases cs with
  | nil => exact absurd rfl hne
  | cons c rest =>
    show a < rest.foldl _ (a * 10 + (c.toNat - 48))
    calc a < a * 10 + (c.toNat - 48) := by omega
    _ ≤ _ := numFold_ge rest _

lemma numVal_append (xs ys : List Char) :
    numVal (xs ++ ys) = ys.foldl (fun a c => a * 10 + (c.toNat - 48)) (numVal xs) := by
  unfold numVal
  exact List.foldl_append ..

lemma numVal_pos {c : Char} (hd : c.isDigit = true) (hc : c ≠ '0') (t : List Char) :
    1 ≤ numVal (c :: t) := by
  have h49 := toNat_ge_49 hd hc
  show 1 ≤ t.foldl _ (0 * 10 + (c.toNat - 48))
  calc (1 : Nat) ≤ 0 * 10 + (c.toNat - 48) := by omega
  _ ≤ _ := numFold_ge t _

lemma numVal_append_gt {c R : List Char} (hc1 : 1 ≤ numVal c) (hR : R ≠ []) :
    numVal c < numVal (c ++ R) := by
  rw [numVal_append]
  exact numFold_gt hR hc1

/-! ## Parser shape lemmas -/

lemma parseCore_shape {cs : List Char} {v : SemVer} (h : parseCore cs = some v) :
    ∃ a b c, splitDots (cs.takeWhile isVerChar) = [a, b, c] ∧
      cs.takeWhile isVerChar = a ++ '.' :: (b ++ '.' :: c) ∧
      isNumeral a = true ∧ isNumeral b = true ∧ isNumeral c = true ∧
      v.major = numVal a ∧ v.minor = numVal b ∧ v.patch = numVal c ∧
      parseSuffix (cs.dropWhile isVerChar) = some (v.pre, v.build) := by
  unfold parseCore at h
  split at h
  case h_2 => exact absurd h (by simp)
  case h_1 a b c heq =>
    split at h
    case isFalse => exact absurd h (by simp)
    case isTrue hnum =>
      split at h
      case h_2 => exact absurd h (by simp)
      case h_1 pre build heq2 =>
        rw [Bool.and_eq_true, Bool.and_eq_true] at hnum
        obtain ⟨⟨hna, hnb⟩, hnc⟩ := hnum
        have hv : v = ⟨numVal a, numVal b, numVal c, pre, build⟩ := by
          exact (Option.some.injEq ..).mp h.symm
        have hj := joinDots_splitDots (cs.takeWhile isVerChar)
        rw [heq] at hj
        refine ⟨a, b, c, heq, ?_, hna, hnb, hnc, ?_, ?_, ?_, ?_⟩
        · simpa [joinDots] using hj.symm
        · rw [hv]
        · rw [hv]
        · rw [hv]
        · rw [hv, heq2]

lemma parseCore_nonempty {cs : List Char} {v : SemVer} (h : parseCore cs = some v) :
    cs ≠ [] := by
  intro hcs
  subst hcs
  have hnone : parseCore ([] : List Char) = none := rfl
  rw [hnone] at h
  exact Option.noConfusion h

/-- The strip of a parsed version decomposes as its main version followed by
the stripped (dotless or not) remainder of the suffix. -/
lemma stripL_of_parseCore {cs : List Char} {v : SemVer} (h : parseCore cs = some v) :
    ∃ a b c R, stripL cs = (a ++ '.' :: (b ++ '.' :: c)) ++ R ∧
      isNumeral a = true ∧ isNumeral b = true ∧ isNumeral c = true ∧
      v.major = numVal a ∧ v.minor = numVal b ∧ v.patch = numVal c ∧
      ('.' : Char) ∉ a ∧ ('.' : Char) ∉ b ∧ ('.' : Char) ∉ c ∧
      (∀ x ∈ R, isVerChar x = true) := by
  obtain ⟨a, b, c, hsd, hmain, hna, hnb, hnc, hMa, hMb, hMc, hsuf⟩ := parseCore_shape h
  refine ⟨a, b, c, stripL (cs.dropWhile isVerChar), ?_, hna, hnb, hnc, hMa, hMb, hMc,
    ?_, ?_, ?_, ?_⟩
  · conv_lhs => rw [← List.takeWhile_append_dropWhile (p := isVerChar) (l := cs)]
    rw [stripL_append, hmain,
      stripL_eq_self (by
        intro x hx
        rw [← hmain] at hx
        exact List.mem_takeWhile_imp hx)]
  · exact noDot_of_mem_splitDots _ a (by rw [hsd]; simp)
  · exact noDot_of_mem_splitDots _ b (by rw [hsd]; simp)
  · exact noDot_of_mem_splitDots _ c (by rw [hsd]; simp)
  · intro x hx
    exact mem_stripL_isVerChar hx

lemma count_dot_main {a b c : List Char} (ha : ('.' : Char) ∉ a) (hb : ('.' : Char) ∉ b)
    (hc : ('.' : Char) ∉ c) :
    (a ++ '.' :: (b ++ '.' :: c)).count '.' = 2 := by
  rw [List.count_append, List.count_cons, List.count_append, List.count_cons]
  rw [List.count_eq_zero.mpr ha, List.count_eq_zero.mpr hb, List.count_eq_zero.mpr hc]
  simp

/-- Evaluating the semver parser on an all-digits-and-dots string skips the
trimming and `v`-dropping. -/
lemma parseSemver_verChars {cs : List Char} (h : ∀ x ∈ cs, isVerChar x = true) :
    parseSemver (String.mk cs) = parseCore cs := by
  unfold parseSemver
  have hdata : (String.mk cs).data = cs := rfl
  rw [hdata, trimChars_eq_self (fun c hc => isWSChar_eq_false_of_isVerChar (h c hc)),
    dropV_eq_self h]

/-- The central lemma behind idempotence: if a string parses as `lv`, then
whenever its digits-and-dots strip parses at all, the strip parses to a
version at least as high as `lv` — so `gt(latest, strip(latest-as-written))`
is always false. -/
lemma parseCore_strip_not_gt {cs : List Char} {lv cv : SemVer}
    (h : parseCore cs = some lv)
    (h2 : parseCore (stripL cs) = some cv) :
    gtv lv cv = false := by
  obtain ⟨a, b, c, R, hstrip, hna, hnb, hnc, hMa, hMb, hMc, hda, hdb, hdc, hR⟩ :=
    stripL_of_parseCore h
  -- the strip is all digits-and-dots, so its takeWhile is everything
  have hall : ∀ x ∈ stripL cs, isVerChar x = true := fun x hx => mem_stripL_isVerChar hx
  have htake : (stripL cs).takeWhile isVerChar = stripL cs :=
    List.takeWhile_eq_self_iff.mpr hall
  have hdrop : (stripL cs).dropWhile isVerChar = [] :=
    List.dropWhile_eq_nil_iff.mpr hall
  obtain ⟨a2, b2, c2, hsd2, hmain2, hna2, hnb2, hnc2, hCa, hCb, hCc, hsuf2⟩ :=
    parseCore_shape h2
  rw [htake] at hsd2 hmain2
  -- cv has no prerelease part: the suffix of the strip is empty
  have hpre2 : cv.pre = [] := by
    rw [hdrop] at hsuf2
    have : (([] : List PreId), ([] : List String)) = (cv.pre, cv.build) := by
      simpa [parseSuffix] using hsuf2
    exact (Prod.mk.injEq ..).mp this |>.1.symm
  -- the strip has exactly two dots, so R has none
  have hcount3 : (stripL cs).count '.' = 2 := by
    have := length_splitDots (stripL cs)
    rw [hsd2] at this
    simpa using this.symm
  have hcountR : R.count '.' = 0 := by
    rw [hstrip, List.count_append, count_dot_main hda hdb hdc] at hcount3
    omega
  have hdR : ('.' : Char) ∉ R := by
    intro hmem
    have := List.count_pos_iff.mpr hmem
    omega
  -- hence the split of the strip is [a, b, c ++ R]
  have hsplit : splitDots (stripL cs) = [a, b, c ++ R] := by
    rw [hstrip]
    have hassoc : (a ++ '.' :: (b ++ '.' :: c)) ++ R = a ++ '.' :: (b ++ '.' :: (c ++ R)) := by
      simp [List.append_assoc]
    rw [hassoc, splitDots_append_dot hda, splitDots_append_dot hdb,
      splitDots_noDot (by
        intro hmem
        rcases List.mem_append.mp hmem with hm | hm
        · exact hdc hm
        · exact hdR hm)]
  rw [hsplit] at hsd2
  obtain ⟨ha2, hb2, hc2⟩ : a = a2 ∧ b = b2 ∧ c ++ R = c2 := by
    simpa using hsd2
  subst ha2; subst hb2; subst hc2
  -- equal major and minor parts in both versions
  have heqM : compare lv.major cv.major = Ordering.eq := by
    rw [hCa, hMa]; exact Nat.compare_eq_eq.mpr rfl
  have heqm : compare lv.minor cv.minor = Ordering.eq := by
    rw [hCb, hMb]; exact Nat.compare_eq_eq.mpr rfl
  cases hRnil : R with
  | nil =>
    -- the strip is exactly the main version of lv
    subst hRnil
    have heqp : compare lv.patch cv.patch = Ordering.eq := by
      rw [hCc, hMc, List.append_nil]; exact Nat.compare_eq_eq.mpr rfl
    unfold gtv compareSemVer compareMain
    rw [heqM, heqm, heqp, hpre2]
    cases lv.pre <;> rfl
  | cons r rs =>
    -- extra digits were appended to the patch numeral, making it larger
    subst hRnil
    cases hcnil : c with
    | nil => rw [hcnil] at hnc; exact absurd hnc (by decide)
    | cons c0 ct =>
      rw [hcnil] at hnc2 hCc hMc
      -- c ++ R is a multi-character numeral, so its head is a nonzero digit
      have hcons : c0 :: ct ++ r :: rs = c0 :: (ct ++ r :: rs) := by simp
      rw [hcons] at hnc2 hCc
      obtain ⟨z, zs, hz⟩ : ∃ z zs, ct ++ r :: rs = z :: zs := by
        cases hh : ct ++ r :: rs with
        | nil => exact absurd hh (by simp)
        | cons z zs => exact ⟨z, zs, rfl⟩
      rw [hz] at hnc2
      have hdig : c0.isDigit = true ∧ c0 ≠ '0' := by
        have := hnc2
        unfold isNumeral at this
        simp only [Bool.and_eq_true, bne_iff_ne] at this
        exact ⟨this.1.1, this.1.2⟩
      have hpos : 1 ≤ numVal (c0 :: ct) := numVal_pos hdig.1 hdig.2 ct
      have hlt : numVal (c0 :: ct) < numVal ((c0 :: ct) ++ r :: rs) :=
        numVal_append_gt hpos (by simp)
      have hltp : lv.patch < cv.patch := by
        rw [hCc, hMc]
        simpa using hlt
    -- strictly smaller patch means lv compares below cv
      have heqp : compare lv.patch cv.patch = Ordering.lt := Nat.compare_eq_lt.mpr hltp
      unfold gtv compareSemVer compareMain
      rw [heqM, heqm, heqp]
      rfl

/-! ## String-level parser lemmas -/

lemma parseSemver_strip_not_gt {L : String} {lv cv : SemVer}
    (h : parseSemver L = some lv) (h2 : parseSemver (stripStr L) = some cv) :
    gtv lv cv = false := by
  unfold parseSemver at h
  have hstrip : stripL (dropV (trimChars L.data)) = stripL L.data := by
    rw [stripL_dropV, stripL_trimChars]
  have h2core : parseCore (stripL (dropV (trimChars L.data))) = some cv := by
    rw [hstrip,
      ← @parseSemver_verChars (stripL L.data) (fun x hx => mem_stripL_isVerChar hx)]
    exact h2
  exact parseCore_strip_not_gt h h2core

lemma parseCore_not_verChar_head {c : Char} (hc : isVerChar c = false) (ys : List Char) :
    parseCore (c :: ys) = none := by
  have ht : (c :: ys).takeWhile isVerChar = [] := by
    rw [List.takeWhile_cons, hc]
    simp
  unfold parseCore
  rw [ht]
  rfl

lemma data_caret_append (L : String) : ("^" ++ L).data = '^' :: L.data := by
  rw [String.data_append]
  rfl

lemma parseSemver_caret (L : String) : parseSemver ("^" ++ L) = none := by
  unfold parseSemver
  rw [data_caret_append]
  obtain ⟨ys, hys⟩ := trimChars_cons (by decide : isWSChar '^' = false) L.data
  rw [hys]
  have hdv : dropV ('^' :: ys) = '^' :: ys := by
    show (if '^' = 'v' then ys else '^' :: ys) = '^' :: ys
    rw [if_neg (by decide)]
  rw [hdv]
  exact parseCore_not_verChar_head (by decide) ys

lemma preTruthy_caret (L : String) : preTruthy ("^" ++ L) = false := by
  unfold preTruthy
  rw [parseSemver_caret]

lemma stripStr_caret (L : String) : stripStr ("^" ++ L) = stripStr L := by
  unfold stripStr stripL
  rw [data_caret_append, List.filter_cons]
  simp [isVerChar_caret]

lemma preTruthy_eq_of_parse {s : String} {v : SemVer} (h : parseSemver s = some v) :
    preTruthy s = !v.pre.isEmpty := by
  unfold preTruthy
  rw [h]

lemma ne_empty_of_valid_strip {s : String} (h : validStr (stripStr s) = true) :
    s ≠ "" := by
  intro hs
  subst hs
  exact absurd h (by decide)

/-! ## `checkEntry` reduction and the second-run lemma -/

lemma checkEntry_str_eq (r : String → RegOutcome) (n s : String) :
    checkEntry r n (.str s) =
      if preTruthy s || !validStr (stripStr s) then .ok none
      else
        match getLatestVersion r n with
        | none => .ok none
        | some latestVersion =>
          match parseSemver latestVersion with
          | none => .error ()
          | some lv =>
            match parseSemver (stripStr s) with
            | none => .error ()
            | some cv =>
              if gtv lv cv then .ok (some ⟨n, s, latestVersion, diffT cv lv⟩)
              else .ok none := rfl

lemma checkEntry_null (r : String → RegOutcome) (n : String) :
    checkEntry r n .null = .ok none := rfl

lemma checkEntry_other (r : String → RegOutcome) (n : String) (b : Bool) :
    checkEntry r n (.other b) = .error () := rfl

/-- After an update writes `latest` (with or without a fresh `^` prefix) into
the catalog, re-checking that entry against the same registry answer finds it
up to date. -/
lemma checkEntry_written_ok {r : String → RegOutcome} {n L : String} {lv : SemVer}
    (hr : r n = .ok L) (hp : parseSemver L = some lv) {w : String}
    (hw : w = L ∨ w = "^" ++ L) :
    checkEntry r n (.str w) = .ok none := by
  have hlat : getLatestVersion r n = some L := by
    unfold getLatestVersion
    rw [hr]
  have hstripw : stripStr w = stripStr L := by
    rcases hw with hw | hw <;> rw [hw]
    exact stripStr_caret L
  rw [checkEntry_str_eq]
  cases hv : parseSemver (stripStr w) with
  | none =>
    have hcond : (preTruthy w || !validStr (stripStr w)) = true := by
      unfold validStr
      rw [hv]
      simp
    rw [hcond]
    rfl
  | some cv =>
    by_cases hpre : preTruthy w = true
    · have hcond : (preTruthy w || !validStr (stripStr w)) = true := by
        rw [hpre]
        simp
      rw [hcond]
      rfl
    · rw [Bool.not_eq_true] at hpre
      have hcond : (preTruthy w || !validStr (stripStr w)) = false := by
        unfold validStr
        rw [hv, hpre]
        rfl
      have hgt : gtv lv cv = false := by
        rw [hstripw] at hv
        exact parseSemver_strip_not_gt hp hv
      rw [hcond]
      simp only [Bool.false_eq_true, if_false, hlat, hp, hv, hgt]

/-! ## `runCheck` structure lemmas -/

lemma runCheck_nil (r : String → RegOutcome) : runCheck r [] = .ok [] := rfl

lemma collectResults_cons_eq (r : String → RegOutcome) (p : String × JValue) (rest : Catalog) :
    collectResults r (p :: rest) =
      match checkEntry r p.1 p.2, collectResults r rest with
      | .ok x, .ok xs => .ok (x :: xs)
      | .error e, _ => .error e
      | _, .error e => .error e := by
  conv_lhs => rw [collectResults]

lemma runCheck_cons_eq (r : String → RegOutcome) (p : String × JValue) (rest : Catalog) :
    runCheck r (p :: rest) =
      match checkEntry r p.1 p.2, runCheck r rest with
      | .ok x, .ok outs => .ok (x.toList ++ outs)
      | .error e, _ => .error e
      | .ok _, .error e => .error e := by
  unfold runCheck
  rw [collectResults_cons_eq]
  cases checkEntry r p.1 p.2 with
  | error e =>
    cases collectResults r rest with
    | error e2 => rfl
    | ok xs => rfl
  | ok x =>
    cases collectResults r rest with
    | error e => rfl
    | ok xs => cases x <;> rfl

/-- Everything `checkEntry` reveals about a produced outdated entry. -/
lemma checkEntry_some {r : String → RegOutcome} {n : String} {v : JValue} {d : OutdatedInfo}
    (h : checkEntry r n v = .ok (some d)) :
    d.name = n ∧ v = .str d.current ∧ r n = .ok d.latest ∧
      validStr (stripStr d.current) = true ∧ preTruthy d.current = false ∧
      ∃ lv cv, parseSemver d.latest = some lv ∧ parseSemver (stripStr d.current) = some cv ∧
        gtv lv cv = true ∧ d.type = diffT cv lv := by
  cases v with
  | null => exact absurd h (by simp [checkEntry_null])
  | other b => exact absurd h (by simp [checkEntry_other])
  | str s =>
    rw [checkEntry_str_eq] at h
    split at h
    case isTrue => exact absurd h (by simp)
    case isFalse hcond =>
      rw [Bool.or_eq_true, not_or, Bool.not_eq_true, Bool.not_eq_true] at hcond
      obtain ⟨hpre, hval2⟩ := hcond
      have hval : validStr (stripStr s) = true := by
        cases hvv : validStr (stripStr s)
        · rw [hvv] at hval2; exact absurd hval2 (by decide)
        · rfl
      cases hlat : getLatestVersion r n with
      | none => simp only [hlat] at h; exact absurd h (by simp)
      | some latest =>
        simp only [hlat] at h
        cases hplat : parseSemver latest with
        | none => simp only [hplat] at h; exact absurd h (by simp)
        | some lv =>
          simp only [hplat] at h
          cases hpstrip : parseSemver (stripStr s) with
          | none => simp only [hpstrip] at h; exact absurd h (by simp)
          | some cv =>
            simp only [hpstrip] at h
            split at h
            case isFalse => exact absurd h (by simp)
            case isTrue hgt =>
              have hd : d = ⟨n, s, latest, diffT cv lv⟩ := by
                have h2 := (Except.ok.injEq ..).mp h
                exact ((Option.some.injEq ..).mp h2).symm
              subst hd
              have hrn : r n = .ok latest := by
                unfold getLatestVersion at hlat
                cases hr : r n <;> rw [hr] at hlat <;> simp_all
              exact ⟨rfl, rfl, hrn, hval, hpre, lv, cv, hplat, hpstrip, hgt, rfl⟩

/-- Each produced entry comes from a catalog entry with that name and that
(string) current value, and re-checking it reproduces it. -/
lemma runCheck_mem {r : String → RegOutcome} :
    ∀ {cat : Catalog} {out : List OutdatedInfo}, runCheck r cat = .ok out →
      ∀ {d : OutdatedInfo}, d ∈ out →
        (d.name, JValue.str d.current) ∈ cat ∧
          checkEntry r d.name (.str d.current) = .ok (some d) := by
  intro cat
  induction cat with
  | nil =>
    intro out h d hd
    rw [runCheck_nil] at h
    have hout : ([] : List OutdatedInfo) = out := (Except.ok.injEq ..).mp h
    rw [← hout] at hd
    exact absurd hd (by simp)
  | cons p rest ih =>
    intro out h d hd
    rw [runCheck_cons_eq] at h
    cases hce : checkEntry r p.1 p.2 with
    | error e =>
      rw [hce] at h
      cases hrc : runCheck r rest with
      | error e2 => rw [hrc] at h; simp at h
      | ok outs => rw [hrc] at h; simp at h
    | ok x =>
      rw [hce] at h
      cases hrc : runCheck r rest with
      | error e => rw [hrc] at h; simp at h
      | ok outs =>
        rw [hrc] at h
        have hout : x.toList ++ outs = out := by simpa using h
        rw [← hout] at hd
        rcases List.mem_append.mp hd with hm | hm
        · cases x with
          | none => exact absurd hm (by simp)
          | some d0 =>
            have hd0 : d = d0 := by simpa using hm
            subst hd0
            obtain ⟨hname, hvs, _, _, _, _⟩ := checkEntry_some hce
            constructor
            · rw [hname, ← hvs]
              exact List.mem_cons_self ..
            · rw [hname, ← hvs]
              exact hce
        · obtain ⟨h1, h2⟩ := ih hrc hm
          exact ⟨List.mem_cons_of_mem _ h1, h2⟩

/-- Every catalog entry of a successful run either checked to `null` or
produced exactly one entry of the outdated set, named after it. -/
lemma runCheck_all {r : String → RegOutcome} :
    ∀ {cat : Catalog} {out : List OutdatedInfo}, runCheck r cat = .ok out →
      ∀ {p : String × JValue}, p ∈ cat →
        checkEntry r p.1 p.2 = .ok none ∨
          ∃ d ∈ out, checkEntry r p.1 p.2 = .ok (some d) ∧ d.name = p.1 := by
  intro cat
  induction cat with
  | nil => intro out h p hp; exact absurd hp (by simp)
  | cons q rest ih =>
    intro out h p hp
    rw [runCheck_cons_eq] at h
    cases hce : checkEntry r q.1 q.2 with
    | error e =>
      rw [hce] at h
      cases hrc : runCheck r rest with
      | error e2 => rw [hrc] at h; simp at h
      | ok outs => rw [hrc] at h; simp at h
    | ok x =>
      rw [hce] at h
      cases hrc : runCheck r rest with
      | error e => rw [hrc] at h; simp at h
      | ok outs =>
        rw [hrc] at h
        have hout : x.toList ++ outs = out := by simpa using h
        rcases List.mem_cons.mp hp with hpq | hpm
        · subst hpq
          cases x with
          | none => exact Or.inl hce
          | some d0 =>
            refine Or.inr ⟨d0, ?_, hce, (checkEntry_some hce).1⟩
            rw [← hout]
            simp
        · rcases ih hrc hpm with h1 | ⟨d0, hd0, h1, h2⟩
          · exact Or.inl h1
          · refine Or.inr ⟨d0, ?_, h1, h2⟩
            rw [← hout]
            exact List.mem_append.mpr (Or.inr hd0)

/-- The names of the outdated set form a sublist of the catalog keys. -/
lemma runCheck_names_sublist {r : String → RegOutcome} :
    ∀ {cat : Catalog} {out : List OutdatedInfo}, runCheck r cat = .ok out →
      List.Sublist (out.map (fun d => d.name)) (cat.map (fun p => p.1)) := by
  intro cat
  induction cat with
  | nil =>
    intro out h
    rw [runCheck_nil] at h
    have hout : ([] : List OutdatedInfo) = out := (Except.ok.injEq ..).mp h
    rw [← hout]
    simp
  | cons p rest ih =>
    intro out h
    rw [runCheck_cons_eq] at h
    cases hce : checkEntry r p.1 p.2 with
    | error e =>
      rw [hce] at h
      cases hrc : runCheck r rest with
      | error e2 => rw [hrc] at h; simp at h
      | ok outs => rw [hrc] at h; simp at h
    | ok x =>
      rw [hce] at h
      cases hrc : runCheck r rest with
      | error e => rw [hrc] at h; simp at h
      | ok outs =>
        rw [hrc] at h
        have hout : x.toList ++ outs = out := by simpa using h
        rw [← hout]
        cases x with
        | none =>
          simp only [Option.toList_none, List.nil_append]
          exact (ih hrc).cons p.1
        | some d0 =>
          simp only [Option.toList_some, List.singleton_append, List.map_cons]
          rw [(checkEntry_some hce).1]
          exact (ih hrc).cons₂ p.1

/-- A run in which every entry checks out up to date returns the empty
outdated set. -/
lemma runCheck_all_none {r : String → RegOutcome} :
    ∀ {cat : Catalog}, (∀ p ∈ cat, checkEntry r p.1 p.2 = .ok none) →
      runCheck r cat = .ok [] := by
  intro cat
  induction cat with
  | nil => intro _; rfl
  | cons p rest ih =>
    intro h
    rw [runCheck_cons_eq, h p (List.mem_cons_self ..),
      ih (fun q hq => h q (List.mem_cons_of_mem _ hq))]
    rfl

/-! ## `lookup`, `setVal` and `applyUpdates` lemmas -/

lemma lookup_cons (p : String × JValue) (rest : Catalog) (k : String) :
    lookup (p :: rest) k = if p.1 = k then some p.2 else lookup rest k := by
  unfold lookup
  rw [List.find?_cons]
  by_cases h : p.1 = k
  · rw [beq_iff_eq.mpr h]
    simp [h]
  · rw [beq_eq_false_iff_ne.mpr h]
    simp [h]

lemma lookup_eq_of_mem :
    ∀ {cat : Catalog}, (cat.map (fun p => p.1)).Nodup →
      ∀ {k : String} {v : JValue}, (k, v) ∈ cat → lookup cat k = some v := by
  intro cat
  induction cat with
  | nil => intro _ k v h; exact absurd h (by simp)
  | cons p rest ih =>
    intro hnd k v h
    rw [List.map_cons, List.nodup_cons] at hnd
    rw [lookup_cons]
    rcases List.mem_cons.mp h with h1 | h1
    · rw [← h1]
      simp
    · have hk : k ∈ rest.map (fun p => p.1) :=
        List.mem_map.mpr ⟨(k, v), h1, rfl⟩
      have hne : p.1 ≠ k := fun he => hnd.1 (he ▸ hk)
      rw [if_neg hne]
      exact ih hnd.2 h1

lemma setVal_keys (cat : Catalog) (k : String) (v : JValue) :
    (setVal cat k v).map (fun p => p.1) = cat.map (fun p => p.1) := by
  unfold setVal
  rw [List.map_map]
  apply List.map_congr_left
  intro p _
  by_cases h : p.1 = k
  · simp [h]
  · simp [h]

lemma lookup_setVal_self :
    ∀ {cat : Catalog} {k : String}, (lookup cat k).isSome = true →
      ∀ (v : JValue), lookup (setVal cat k v) k = some v := by
  intro cat
  induction cat with
  | nil => intro k h v; exact absurd h (by simp [lookup])
  | cons p rest ih =>
    intro k h v
    unfold setVal
    rw [List.map_cons]
    by_cases hp : p.1 = k
    · rw [if_pos hp, lookup_cons]
      simp
    · rw [if_neg hp]
      rw [lookup_cons, if_neg hp]
      rw [lookup_cons, if_neg hp] at h
      exact ih h v

lemma lookup_setVal_other {k k2 : String} (hne : k2 ≠ k) :
    ∀ (cat : Catalog) (v : JValue), lookup (setVal cat k v) k2 = lookup cat k2 := by
  intro cat
  induction cat with
  | nil => intro v; rfl
  | cons p rest ih =>
    intro v
    unfold setVal
    rw [List.map_cons]
    by_cases hp : p.1 = k
    · rw [if_pos hp, lookup_cons, lookup_cons]
      have h1 : (k, v).1 ≠ k2 := fun he => hne he.symm
      have h2 : p.1 ≠ k2 := by
        rw [hp]
        exact fun he => hne he.symm
      rw [if_neg h1, if_neg h2]
      exact ih v
    · rw [if_neg hp, lookup_cons, lookup_cons]
      by_cases hp2 : p.1 = k2
      · rw [if_pos hp2, if_pos hp2]
      · rw [if_neg hp2, if_neg hp2]
        exact ih v

lemma updateStep_keys (cat : Catalog) (d : OutdatedInfo) :
    (updateStep cat d).map (fun p => p.1) = cat.map (fun p => p.1) := by
  unfold updateStep
  by_cases h : truthy (lookup cat d.name) = true
  · rw [if_pos h, setVal_keys]
  · rw [if_neg h]

lemma applyUpdates_keys (toUpdate : List OutdatedInfo) :
    ∀ (cat : Catalog),
      (applyUpdates cat toUpdate).map (fun p => p.1) = cat.map (fun p => p.1) := by
  induction toUpdate with
  | nil => intro cat; rfl
  | cons d rest ih =>
    intro cat
    show (applyUpdates (updateStep cat d) rest).map _ = _
    rw [ih (updateStep cat d), updateStep_keys]

lemma lookup_updateStep_other {k : String} {d : OutdatedInfo} (hne : k ≠ d.name)
    (cat : Catalog) : lookup (updateStep cat d) k = lookup cat k := by
  unfold updateStep
  by_cases h : truthy (lookup cat d.name) = true
  · rw [if_pos h, lookup_setVal_other hne]
  · rw [if_neg h]

lemma lookup_applyUpdates_not_mem {toUpdate : List OutdatedInfo} {k : String}
    (hk : k ∉ toUpdate.map (fun d => d.name)) :
    ∀ (cat : Catalog), lookup (applyUpdates cat toUpdate) k = lookup cat k := by
  induction toUpdate with
  | nil => intro cat; rfl
  | cons d rest ih =>
    intro cat
    have hk2 : k ∉ rest.map (fun d => d.name) := by
      intro hm
      exact hk (List.mem_cons_of_mem _ hm)
    have hne : k ≠ d.name := by
      intro he
      exact hk (by rw [he]; simp)
    show lookup (applyUpdates (updateStep cat d) rest) k = lookup cat k
    rw [ih hk2 (updateStep cat d), lookup_updateStep_other hne]

lemma truthy_some_str {s : String} (h : s ≠ "") :
    truthy (some (JValue.str s)) = true := by
  unfold truthy
  simpa using h

/-- The final value of an updated entry: the name is looked up, found truthy,
and overwritten with `newValue`. -/
lemma lookup_applyUpdates_mem :
    ∀ {toUpdate : List OutdatedInfo}, (toUpdate.map (fun d => d.name)).Nodup →
      ∀ {d : OutdatedInfo}, d ∈ toUpdate →
        ∀ {cat : Catalog}, truthy (lookup cat d.name) = true →
          lookup (applyUpdates cat toUpdate) d.name = some (.str (newValue d)) := by
  intro toUpdate
  induction toUpdate with
  | nil => intro _ d hd; exact absurd hd (by simp)
  | cons d0 rest ih =>
    intro hnd d hd cat ht
    rw [List.map_cons, List.nodup_cons] at hnd
    rcases List.mem_cons.mp hd with h1 | h1
    · subst h1
      show lookup (applyUpdates (updateStep cat d) rest) d.name = _
      have hstep : updateStep cat d = setVal cat d.name (.str (newValue d)) := by
        unfold updateStep
        rw [if_pos ht]
      rw [hstep, lookup_applyUpdates_not_mem hnd.1,
        lookup_setVal_self (by
          cases hl : lookup cat d.name
          · rw [hl] at ht; exact absurd ht (by simp [truthy])
          · simp)]
    · have hdn : d.name ∈ rest.map (fun x => x.name) :=
        List.mem_map.mpr ⟨d, h1, rfl⟩
      have hne : d.name ≠ d0.name := fun he => hnd.1 (he ▸ hdn)
      show lookup (applyUpdates (updateStep cat d0) rest) d.name = _
      exact ih hnd.2 h1 (by rw [lookup_updateStep_other hne]; exact ht)

/-- Every entry of the updated catalog is either a rewrite of an entry whose
name occurs in the update list, or an untouched original entry. -/
lemma applyUpdates_mem_char :
    ∀ {toUpdate : List OutdatedInfo} {cat : Catalog},
      (cat.map (fun p => p.1)).Nodup →
      (toUpdate.map (fun d => d.name)).Nodup →
      (∀ d ∈ toUpdate, (d.name, JValue.str d.current) ∈ cat ∧ d.current ≠ "") →
      ∀ p ∈ applyUpdates cat toUpdate,
        (∃ d ∈ toUpdate, p = (d.name, JValue.str (newValue d))) ∨
          (p ∈ cat ∧ p.1 ∉ toUpdate.map (fun d => d.name)) := by
  intro toUpdate
  induction toUpdate with
  | nil =>
    intro cat _ _ _ p hp
    exact Or.inr ⟨hp, by simp⟩
  | cons d0 rest ih =>
    intro cat hndk hnd h3 p hp
    rw [List.map_cons, List.nodup_cons] at hnd
    obtain ⟨hmem0, hne0⟩ := h3 d0 (List.mem_cons_self ..)
    have hl0 : lookup cat d0.name = some (.str d0.current) := lookup_eq_of_mem hndk hmem0
    have ht0 : truthy (lookup cat d0.name) = true := by
      rw [hl0]
      exact truthy_some_str hne0
    have hstep : updateStep cat d0 = setVal cat d0.name (.str (newValue d0)) := by
      unfold updateStep
      rw [if_pos ht0]
    have hp2 : p ∈ applyUpdates (setVal cat d0.name (.str (newValue d0))) rest := by
      have hp3 : p ∈ applyUpdates (updateStep cat d0) rest := hp
      rw [hstep] at hp3
      exact hp3
    have hndk2 : ((setVal cat d0.name (.str (newValue d0))).map (fun p => p.1)).Nodup := by
      rw [setVal_keys]
      exact hndk
    have h32 : ∀ d ∈ rest,
        (d.name, JValue.str d.current) ∈ setVal cat d0.name (.str (newValue d0)) ∧
          d.current ≠ "" := by
      intro d hd
      obtain ⟨hm, hne⟩ := h3 d (List.mem_cons_of_mem _ hd)
      have hdn : d.name ∈ rest.map (fun x => x.name) := List.mem_map.mpr ⟨d, hd, rfl⟩
      have hdne : d.name ≠ d0.name := fun he => hnd.1 (he ▸ hdn)
      refine ⟨?_, hne⟩
      unfold setVal
      have him : (fun p => if p.1 = d0.name then (d0.name, JValue.str (newValue d0)) else p)
          (d.name, JValue.str d.current) = (d.name, JValue.str d.current) := by
        simp [hdne]
      rw [← him]
      exact List.mem_map_of_mem _ hm
    rcases ih hndk2 hnd.2 h32 p hp2 with ⟨d, hd, hpd⟩ | ⟨hpc, hpn⟩
    · exact Or.inl ⟨d, List.mem_cons_of_mem _ hd, hpd⟩
    · -- p is in the once-updated catalog but untouched by the rest
      unfold setVal at hpc
      obtain ⟨q, hq, hqp⟩ := List.mem_map.mp hpc
      by_cases hq0 : q.1 = d0.name
      · rw [if_pos hq0] at hqp
        refine Or.inl ⟨d0, List.mem_cons_self .., hqp.symm⟩
      · rw [if_neg hq0] at hqp
        subst hqp
        refine Or.inr ⟨hq, ?_⟩
        rw [List.map_cons]
        intro hm
        rcases List.mem_cons.mp hm with hm1 | hm1
        · exact hq0 hm1
        · exact hpn hm1

/-! ## Reporter helper -/

lemma mem_sectionFor {hdr : String} {ds : List OutdatedInfo} {d : OutdatedInfo}
    (hd : d ∈ ds) : entryLine d ∈ sectionFor hdr ds := by
  unfold sectionFor
  have hne : ds.isEmpty = false := by
    cases ds
    · exact absurd hd (by simp)
    · rfl
  rw [hne]
  simp only [Bool.false_eq_true, if_false]
  exact List.mem_cons_of_mem _ (List.mem_map_of_mem _ hd)

lemma mem_bucket {t : DiffType} {out : List OutdatedInfo} {d : OutdatedInfo}
    (hd : d ∈ out) (ht : d.type = some t) : d ∈ bucket t out := by
  unfold bucket
  refine List.mem_filter.mpr ⟨hd, ?_⟩
  rw [ht]
  simp

/-! ## The claims -/

/-- C1 (counterexample): an outdated entry whose delta type is `premajor` is
produced by the run but appears nowhere in the printed report — the report
prints only the major, minor and patch buckets, refuting the claim that
every entry of the outdated set appears in the printed output. -/
theorem c1_counterexample :
    runCheck regC1 catC1 = .ok [dC1] ∧
    dC1.type = some DiffType.premajor ∧
    printedReport [dC1] = ["Outdated dependencies found:"] ∧
    entryLine dC1 ∉ printedReport [dC1] := by
  refine ⟨by rfl, rfl, by decide, by decide⟩

/-- C1 (amended): the outdated set is partitioned into buckets by delta
type, and every entry whose delta type is major, minor or patch appears in
the printed report, the buckets printed in the order major, minor, patch;
entries with the prerelease-style delta types are grouped but never
printed (they remain in the outdated set and cause no crash). -/
theorem c1_theorem (out : List OutdatedInfo) (d : OutdatedInfo) (hd : d ∈ out)
    (t : DiffType) (htype : d.type = some t)
    (ht : t = DiffType.major ∨ t = DiffType.minor ∨ t = DiffType.patch) :
    entryLine d ∈ printedReport out := by
  have hne : out.isEmpty = false := by
    cases out
    · exact absurd hd (by simp)
    · rfl
  unfold printedReport
  rw [hne]
  simp only [Bool.false_eq_true, if_false]
  have hmem : d ∈ bucket t out := mem_bucket hd htype
  rcases ht with ht | ht | ht <;> subst ht
  · exact List.mem_cons_of_mem _ (List.mem_append.mpr (Or.inl
      (List.mem_append.mpr (Or.inl (mem_sectionFor hmem)))))
  · exact List.mem_cons_of_mem _ (List.mem_append.mpr (Or.inl
      (List.mem_append.mpr (Or.inr (mem_sectionFor hmem)))))
  · exact List.mem_cons_of_mem _ (List.mem_append.mpr (Or.inr (mem_sectionFor hmem)))

/-- C1 (witness): a concrete major-update entry does appear in the printed
report. -/
theorem c1_witness : entryLine dW6a ∈ printedReport [dW6a] :=
  c1_theorem [dW6a] dW6a (by decide) DiffType.major (by decide) (Or.inl rfl)

/-- C2: the update loop neither adds nor removes catalog entries — the key
list (hence the set of dependency names) of the catalog is unchanged by any
update, and only values of already-present keys are rewritten. -/
theorem c2_theorem (cat : Catalog) (toUpdate : List OutdatedInfo) :
    (applyUpdates cat toUpdate).map (fun p => p.1) = cat.map (fun p => p.1) :=
  applyUpdates_keys toUpdate cat

/-- C3: for an eligible entry still present in the catalog (with a truthy
value), the update writes the latest version, prefixed with `^` exactly when
the original value started with `^`; any other prefix style is discarded. -/
theorem c3_theorem (cat : Catalog) (toUpdate : List OutdatedInfo) (d : OutdatedInfo)
    (hnd : (toUpdate.map (fun x => x.name)).Nodup) (hd : d ∈ toUpdate)
    (ht : truthy (lookup cat d.name) = true) :
    lookup (applyUpdates cat toUpdate) d.name =
      some (.str (if startsCaret d.current then "^" ++ d.latest else d.latest)) :=
  lookup_applyUpdates_mem hnd hd ht

/-- C3 (witness): `^1.2.3` with latest `1.3.0` becomes `^1.3.0`, and
`1.2.3` becomes `1.3.0`. -/
theorem c3_witness :
    lookup (applyUpdates catW3 [dW3a, dW3b]) "foo" = some (.str "^1.3.0") ∧
    lookup (applyUpdates catW3 [dW3a, dW3b]) "bar" = some (.str "1.3.0") :=
  ⟨c3_theorem catW3 [dW3a, dW3b] dW3a (by decide) (by decide) (by decide),
   c3_theorem catW3 [dW3a, dW3b] dW3b (by decide) (by decide) (by decide)⟩

/-- C4 (counterexample): a tilde prefix is not preserved — running an
unfiltered update on the catalog entry `foo: ~1.2.3` with latest `1.3.0`
writes the bare `1.3.0`, dropping the `~`. -/
theorem c4_counterexample :
    lookup (catalogOf docC4) "foo" = some (.str "~1.2.3") ∧
    writtenDoc noFilterUpd regC4 docC4 =
      .ok ⟨some [("foo", JValue.str "1.3.0")], [("packages", JValue.str "pkg")]⟩ ∧
    ("~1.2.3").data.head? = some '~' ∧ ("1.3.0").data.head? ≠ some '~' := by
  refine ⟨by decide, by rfl, rfl, by decide⟩

/-- C4 (amended): only the leading-`^` convention is preserved across an
update: an entry whose original value starts with `^` is rewritten to
`^` followed by the latest version (so it still starts with `^`); any other
prefix is discarded and the bare latest version is written. -/
theorem c4_theorem (cat : Catalog) (toUpdate : List OutdatedInfo) (d : OutdatedInfo)
    (hnd : (toUpdate.map (fun x => x.name)).Nodup) (hd : d ∈ toUpdate)
    (ht : truthy (lookup cat d.name) = true)
    (hc : startsCaret d.current = true) :
    lookup (applyUpdates cat toUpdate) d.name = some (.str ("^" ++ d.latest)) ∧
      startsCaret ("^" ++ d.latest) = true := by
  constructor
  · have h := lookup_applyUpdates_mem hnd hd ht
    rw [h]
    unfold newValue
    rw [if_pos hc]
  · unfold startsCaret
    rw [data_caret_append]
    rfl

/-- C4 (witness): a concrete caret entry keeps its caret. -/
theorem c4_witness :
    lookup (applyUpdates catW3 [dW3a]) "foo" = some (.str "^1.3.0") ∧
      startsCaret ("^" ++ "1.3.0") = true :=
  c4_theorem catW3 [dW3a] dW3a (by decide) (by decide) (by decide) (by decide)

/-- C5 (code bug): a non-string catalog value (e.g. YAML `foo: 1.25`, a
number) does not get skipped as the claim states: `version?.replace` throws
a TypeError before the `typeof` check runs, the rejection reaches the
top-level catch, and the whole run aborts — while the sibling string entry
alone would have produced a normal result. -/
theorem c5_theorem :
    checkEntry regC5 "foo" (.other true) = .error () ∧
    runCheck regC5 catC5 = .error () ∧
    checkEntry regC5 "bar" (.str "1.0.0") =
      .ok (some ⟨"bar", "1.0.0", "2.0.0", some DiffType.major⟩) := by
  refine ⟨rfl, by rfl, by rfl⟩

/-- C6: filter behavior of the updater. With no release-type filters every
outdated entry is eligible; with at least one filter, an entry is selected
exactly when its delta type equals a requested filter name; entries with
prerelease-style delta types are never selected by these filters; and in a
run whose entry names are unique, with only `--minor` requested, entries
classified major or patch keep their original catalog value. -/
theorem c6_theorem :
    (∀ out : List OutdatedInfo, filterUpdates noFilterUpd out = out) ∧
    (∀ (f : Flags) (out : List OutdatedInfo) (d : OutdatedInfo),
      (f.patch = true ∨ f.minor = true ∨ f.major = true) →
      (d ∈ filterUpdates f out ↔ d ∈ out ∧
        ((f.patch = true ∧ d.type = some DiffType.patch) ∨
          (f.minor = true ∧ d.type = some DiffType.minor) ∨
          (f.major = true ∧ d.type = some DiffType.major)))) ∧
    (∀ (f : Flags) (out : List OutdatedInfo) (d : OutdatedInfo),
      (f.patch = true ∨ f.minor = true ∨ f.major = true) →
      (d.type = some DiffType.premajor ∨ d.type = some DiffType.preminor ∨
        d.type = some DiffType.prepatch ∨ d.type = some DiffType.prerelease) →
      d ∉ filterUpdates f out) ∧
    (∀ (cat : Catalog) (out : List OutdatedInfo) (d : OutdatedInfo),
      (out.map (fun x => x.name)).Nodup → d ∈ out →
      (d.type = some DiffType.major ∨ d.type = some DiffType.patch) →
      lookup (applyUpdates cat (filterUpdates minorOnlyUpd out)) d.name =
        lookup cat d.name) := by
  have hall : ∀ out : List OutdatedInfo, filterUpdates noFilterUpd out = out := by
    intro out
    rfl
  have hmem : ∀ (f : Flags) (out : List OutdatedInfo) (d : OutdatedInfo),
      (f.patch = true ∨ f.minor = true ∨ f.major = true) →
      (d ∈ filterUpdates f out ↔ d ∈ out ∧
        ((f.patch = true ∧ d.type = some DiffType.patch) ∨
          (f.minor = true ∧ d.type = some DiffType.minor) ∨
          (f.major = true ∧ d.type = some DiffType.major))) := by
    intro f out d hf
    unfold filterUpdates
    have hcond : (f.patch || f.minor || f.major) = true := by
      rcases hf with h | h | h <;> simp [h]
    rw [hcond]
    simp only [if_true, List.mem_filter, Bool.or_eq_true, Bool.and_eq_true, beq_iff_eq]
    tauto
  have hpre : ∀ (f : Flags) (out : List OutdatedInfo) (d : OutdatedInfo),
      (f.patch = true ∨ f.minor = true ∨ f.major = true) →
      (d.type = some DiffType.premajor ∨ d.type = some DiffType.preminor ∨
        d.type = some DiffType.prepatch ∨ d.type = some DiffType.prerelease) →
      d ∉ filterUpdates f out := by
    intro f out d hf ht hmem2
    have h2 := ((hmem f out d hf).mp hmem2).2
    rcases ht with ht | ht | ht | ht <;> rw [ht] at h2 <;>
      rcases h2 with ⟨_, h3⟩ | ⟨_, h3⟩ | ⟨_, h3⟩ <;> simp at h3
  refine ⟨hall, hmem, hpre, ?_⟩
  intro cat out d hnd hd ht
  apply lookup_applyUpdates_not_mem
  intro hm
  obtain ⟨d2, hd2, hdn⟩ := List.mem_map.mp hm
  have hd2out : d2 ∈ out := by
    unfold filterUpdates at hd2
    simp only [minorOnlyUpd] at hd2
    exact (List.mem_filter.mp hd2).1
  have hdd : d2 = d := List.inj_on_of_nodup_map hnd hd2out hd hdn
  subst hdd
  have h2 := ((hmem minorOnlyUpd out d2 (Or.inr (Or.inl rfl))).mp hd2).2
  rcases h2 with ⟨hflag, _⟩ | ⟨_, htype⟩ | ⟨hflag, _⟩
  · exact absurd hflag (by decide)
  · rcases ht with ht | ht <;> rw [ht] at htype <;> simp at htype
  · exact absurd hflag (by decide)

/-- C6 (witness): concrete checks — no filters select everything; with only
`--minor`, a premajor entry is not selected and a major entry keeps its
catalog value. -/
theorem c6_witness :
    filterUpdates noFilterUpd [dW6a, dW6b] = [dW6a, dW6b] ∧
    dW6b ∉ filterUpdates minorOnlyUpd [dW6a, dW6b] ∧
    lookup (applyUpdates catW6 (filterUpdates minorOnlyUpd [dW6a, dW6b])) "a" =
      lookup catW6 "a" :=
  ⟨c6_theorem.1 [dW6a, dW6b],
   c6_theorem.2.2.1 minorOnlyUpd [dW6a, dW6b] dW6b (Or.inr (Or.inl rfl))
     (Or.inl (by decide)),
   c6_theorem.2.2.2 catW6 [dW6a, dW6b] dW6a (by decide) (by decide)
     (Or.inl (by decide))⟩

/-- C7: a failed registry lookup (non-success response or I/O error) is
turned into `null` locally; the failing dependency is excluded from the
outdated set without aborting anything (provided its value is not one of the
non-string values that crash every run), and every other dependency checks
exactly as it would against a registry where that lookup had not failed. -/
theorem c7_theorem (r1 r2 : String → RegOutcome) (bad : String)
    (hagree : ∀ n, n ≠ bad → r2 n = r1 n)
    (hfail : r2 bad = .httpError ∨ r2 bad = .ioError) :
    getLatestVersion r2 bad = none ∧
    (∀ v : JValue, (∀ b, v ≠ .other b) → checkEntry r2 bad v = .ok none) ∧
    (∀ (n : String) (v : JValue), n ≠ bad → checkEntry r2 n v = checkEntry r1 n v) ∧
    (∀ cat : Catalog, (∀ p ∈ cat, p.1 ≠ bad) → runCheck r2 cat = runCheck r1 cat) := by
  have h1 : getLatestVersion r2 bad = none := by
    unfold getLatestVersion
    rcases hfail with h | h <;> rw [h]
  have h2 : ∀ v : JValue, (∀ b, v ≠ .other b) → checkEntry r2 bad v = .ok none := by
    intro v hv
    cases v with
    | null => rfl
    | other b => exact absurd rfl (hv b)
    | str s =>
      rw [checkEntry_str_eq]
      by_cases hc : (preTruthy s || !validStr (stripStr s)) = true
      · rw [hc]
        rfl
      · rw [Bool.not_eq_true] at hc
        rw [hc, h1]
        rfl
  have h3 : ∀ (n : String) (v : JValue), n ≠ bad →
      checkEntry r2 n v = checkEntry r1 n v := by
    intro n v hn
    have hlat : getLatestVersion r2 n = getLatestVersion r1 n := by
      unfold getLatestVersion
      rw [hagree n hn]
    cases v with
    | null => rfl
    | other b => rfl
    | str s => rw [checkEntry_str_eq, checkEntry_str_eq, hlat]
  refine ⟨h1, h2, h3, ?_⟩
  intro cat
  induction cat with
  | nil => intro _; rfl
  | cons p rest ih =>
    intro hp
    rw [runCheck_cons_eq, runCheck_cons_eq, h3 p.1 p.2 (hp p (List.mem_cons_self ..)),
      ih (fun q hq => hp q (List.mem_cons_of_mem _ hq))]

/-- C7 (witness): a concrete failing lookup for `bad` yields `null`, the
`bad` entry is excluded, and another dependency checks identically under
both registries. -/
theorem c7_witness :
    getLatestVersion regW7b "bad" = none ∧
    checkEntry regW7b "bad" (.str "1.0.0") = .ok none ∧
    checkEntry regW7b "foo" (.str "1.0.0") = checkEntry regW7a "foo" (.str "1.0.0") ∧
    runCheck regW7b [("foo", .str "1.0.0")] = runCheck regW7a [("foo", .str "1.0.0")] := by
  have h := c7_theorem regW7a regW7b "bad"
    (by
      intro n hn
      unfold regW7b regW7a
      rw [if_neg hn])
    (Or.inl (by rfl))
  exact ⟨h.1, h.2.1 (.str "1.0.0") (by intro b hb; exact absurd hb (by simp)),
    h.2.2.1 "foo" (.str "1.0.0") (by decide),
    h.2.2.2 [("foo", .str "1.0.0")] (by
      intro p hp
      have hp2 : p = ("foo", JValue.str "1.0.0") := by simpa using hp
      rw [hp2]
      decide)⟩

/-- C8: the rewrite re-serializes the whole manifest document, and at the
data level every field other than the catalog is carried over unchanged into
the written document. -/
theorem c8_theorem (f : Flags) (r : String → RegOutcome) (doc doc' : WorkspaceDoc)
    (h : writtenDoc f r doc = .ok doc') : doc'.rest = doc.rest := by
  unfold writtenDoc at h
  cases hrc : runCheck r (catalogOf doc) with
  | error e =>
    rw [hrc] at h
    simp [Except.map] at h
  | ok out =>
    rw [hrc] at h
    have h2 : (if out.isEmpty then doc
        else if f.update then
          match doc.catalog with
          | some c => { doc with catalog := some (applyUpdates c (filterUpdates f out)) }
          | none => doc
        else doc) = doc' := by
      simpa [Except.map] using h
    by_cases he : out.isEmpty = true
    · rw [if_pos he] at h2
      rw [← h2]
    · rw [if_neg he] at h2
      by_cases hu : f.update = true
      · rw [if_pos hu] at h2
        cases hcat : doc.catalog with
        | none =>
          rw [hcat] at h2
          rw [← h2]
        | some c =>
          rw [hcat] at h2
          rw [← h2]
      · rw [if_neg hu] at h2
        rw [← h2]

/-- C8 (witness): a concrete update run carries the `packages` field over
unchanged. -/
theorem c8_witness : docW9after.rest = docW9.rest :=
  c8_theorem noFilterUpd regW9 docW9 docW9after (by rfl)

/-- C9: idempotence — after an unfiltered update run (same registry answers
in both runs, unique catalog keys), a second audit of the written document
finds an empty outdated set. -/
theorem c9_theorem (r : String → RegOutcome) (doc doc' : WorkspaceDoc)
    (hnd : ((catalogOf doc).map (fun p => p.1)).Nodup)
    (h1 : writtenDoc noFilterUpd r doc = .ok doc') :
    runCheck r (catalogOf doc') = .ok [] := by
  unfold writtenDoc at h1
  cases hrc : runCheck r (catalogOf doc) with
  | error e =>
    rw [hrc] at h1
    simp [Except.map] at h1
  | ok out =>
    rw [hrc] at h1
    have h2 : (if out.isEmpty then doc
        else if noFilterUpd.update then
          match doc.catalog with
          | some c =>
            { doc with catalog := some (applyUpdates c (filterUpdates noFilterUpd out)) }
          | none => doc
        else doc) = doc' := by
      simpa [Except.map] using h1
    by_cases he : out.isEmpty = true
    · -- the first run found nothing; no write happened and the second run
      -- repeats the first
      rw [if_pos he] at h2
      have hout : out = [] := by
        cases out
        · rfl
        · exact absurd he (by simp)
      rw [← h2]
      rw [hout] at hrc
      exact hrc
    · rw [if_neg he] at h2
      rw [if_pos (show noFilterUpd.update = true from rfl)] at h2
      cases hcat : doc.catalog with
      | none =>
        -- an absent catalog gives an empty outdated set, contradicting `he`
        rw [hcat] at h2
        have hco : catalogOf doc = [] := by
          unfold catalogOf
          rw [hcat]
          rfl
        rw [hco, runCheck_nil] at hrc
        have hout : out = [] := by simpa using hrc
        exact absurd (by rw [hout]; rfl) he
      | some c =>
        rw [hcat] at h2
        have hfu : filterUpdates noFilterUpd out = out := rfl
        rw [hfu] at h2
        have hco : catalogOf doc = c := by
          unfold catalogOf
          rw [hcat]
          rfl
        rw [hco] at hrc hnd
        have hcat' : catalogOf doc' = applyUpdates c out := by
          rw [← h2]
          rfl
        rw [hcat']
        apply runCheck_all_none
        have hndn : (out.map (fun d => d.name)).Nodup :=
          hnd.sublist (runCheck_names_sublist hrc)
        have h3 : ∀ d ∈ out, (d.name, JValue.str d.current) ∈ c ∧ d.current ≠ "" := by
          intro d hd
          obtain ⟨hm, hce⟩ := runCheck_mem hrc hd
          obtain ⟨_, _, _, hval, _, _⟩ := checkEntry_some hce
          exact ⟨hm, ne_empty_of_valid_strip hval⟩
        intro p hp
        rcases applyUpdates_mem_char hnd hndn h3 p hp with ⟨d, hd, hpd⟩ | ⟨hpc, hpn⟩
        · -- an updated entry: the written value re-checks as up to date
          subst hpd
          obtain ⟨hm, hce⟩ := runCheck_mem hrc hd
          obtain ⟨hname, hcur, hrn, _, _, lv, cv, hplv, _, _, _⟩ := checkEntry_some hce
          show checkEntry r d.name (.str (newValue d)) = .ok none
          apply checkEntry_written_ok hrn hplv
          unfold newValue
          by_cases hsc : startsCaret d.current = true
          · rw [if_pos hsc]
            exact Or.inr rfl
          · rw [if_neg hsc]
            exact Or.inl rfl
        · -- an untouched entry: it already checked as up to date
          rcases runCheck_all hrc hpc with h4 | ⟨d0, hd0, _, hdn0⟩
          · exact h4
          · exact absurd (hdn0 ▸ List.mem_map_of_mem (fun d => d.name) hd0) hpn

/-- C9 (witness): a concrete pipeline (one caret minor bump, one prerelease
premajor bump, one failing lookup) updated once reports everything up to
date on the second run. -/
theorem c9_witness :
    writtenDoc noFilterUpd regW9 docW9 = .ok docW9after ∧
    runCheck regW9 (catalogOf docW9after) = .ok [] :=
  ⟨by rfl, c9_theorem regW9 docW9 docW9after (by decide) (by rfl)⟩

/-- C10: with `--update` and no release-type filters, every outdated entry —
including the premajor/preminor/prepatch/prerelease ones — is written into
the catalog, while such an entry belongs to none of the printed buckets, so
the file changes in ways the report did not show. -/
theorem c10_theorem (r : String → RegOutcome) (cat : Catalog) (out : List OutdatedInfo)
    (hrc : runCheck r cat = .ok out) (hnd : (cat.map (fun p => p.1)).Nodup)
    (d : OutdatedInfo) (hd : d ∈ out)
    (ht : d.type = some DiffType.premajor ∨ d.type = some DiffType.preminor ∨
      d.type = some DiffType.prepatch ∨ d.type = some DiffType.prerelease) :
    lookup (applyUpdates cat (filterUpdates noFilterUpd out)) d.name =
      some (.str (newValue d)) ∧
    d ∉ bucket DiffType.major out ∧ d ∉ bucket DiffType.minor out ∧
      d ∉ bucket DiffType.patch out := by
  have hfu : filterUpdates noFilterUpd out = out := rfl
  rw [hfu]
  have hndn : (out.map (fun x => x.name)).Nodup :=
    hnd.sublist (runCheck_names_sublist hrc)
  obtain ⟨hm, hce⟩ := runCheck_mem hrc hd
  obtain ⟨_, _, _, hval, _, _⟩ := checkEntry_some hce
  have hne : d.current ≠ "" := ne_empty_of_valid_strip hval
  have htr : truthy (lookup cat d.name) = true := by
    rw [lookup_eq_of_mem hnd hm]
    exact truthy_some_str hne
  refine ⟨lookup_applyUpdates_mem hndn hd htr, ?_, ?_, ?_⟩ <;>
  · intro hmem
    have h2 := (List.mem_filter.mp hmem).2
    rcases ht with ht | ht | ht | ht <;> rw [ht] at h2 <;> simp at h2

/-- C10 (witness): the premajor entry of `catC1` is written (as the literal
prerelease version) although it sits in no printed bucket. -/
theorem c10_witness :
    lookup (applyUpdates catC1 (filterUpdates noFilterUpd [dC1])) "foo" =
      some (.str "2.0.0-beta.1") ∧
    dC1 ∉ bucket DiffType.major [dC1] ∧ dC1 ∉ bucket DiffType.minor [dC1] ∧
      dC1 ∉ bucket DiffType.patch [dC1] :=
  c10_theorem regC1 catC1 [dC1] (by rfl) (by decide) dC1 (by decide)
    (Or.inl (by decide))

end WorkspaceUpdater
